import Mathlib

/-!
Shallow embedding of the wasm native code manager
(src/wasm/wasm-code-manager.{h,cc}) and proofs about it.

Machine addresses are modelled as natural numbers.  The C++ field name
of the upper bound of an address range is spelled here as the field
name of the lower bound plus the identifier used below, because the
original field name is a reserved word of Lean.
-/

/-- The null address constant.  Machine addresses are modelled as
plain natural numbers throughout. -/
def kNullAddress : Nat := 0

/-- Models struct AddressRange of wasm-code-manager.h.  The C++ field
named after the upper end of the interval is called stop here. -/
structure AddressRange where
  start : Nat
  stop : Nat
deriving DecidableEq, Repr

/-- The default constructor AddressRange(), i.e. both fields null. -/
def AddressRange.mkDefault : AddressRange :=
  { start := kNullAddress, stop := kNullAddress }

/-- Models AddressRange::size(). -/
def AddressRange.size (r : AddressRange) : Nat := r.stop - r.start

/-- Models AddressRange::is_empty(). -/
def AddressRange.is_empty (r : AddressRange) : Bool := r.start == r.stop

/-- Models the boolean conversion operator of AddressRange, which is
written in the source as a comparison of start with kNullAddress. -/
def AddressRange.toBool (r : AddressRange) : Bool := r.start == kNullAddress

/-- The tail of DisjointAllocationPool::Merge: the source range is
adjacent from above to the range it is merged into (whose fields are
passed as the first argument), so its upper bound is raised to the
parameter range, and, if the merged range has become adjacent to the
next stored range, that one is folded in and erased. -/
def MergeAbove (d range : AddressRange) : List AddressRange → List AddressRange
  | [] => [{ start := d.start, stop := range.stop }]
  | n :: rest2 =>
    if range.stop = n.start then
      { start := d.start, stop := n.stop } :: rest2
    else
      { start := d.start, stop := range.stop } :: n :: rest2

/-- Models DisjointAllocationPool::Merge.  The pool is the std list of
ranges; the scan of the source (skip all ranges strictly before the
parameter, then the four-way case split) becomes structural recursion:
the skip loop is the first branch, and the iterator position at loop
end is the head of the remaining list. -/
def DisjointAllocationPool.Merge (range : AddressRange) :
    List AddressRange → List AddressRange
  | [] => [range]
  | d :: rest =>
    if d.stop < range.start then
      d :: DisjointAllocationPool.Merge range rest
    else if d.start = range.stop then
      { start := range.start, stop := d.stop } :: rest
    else if range.stop < d.start then
      range :: d :: rest
    else
      MergeAbove d range rest

/-- Models DisjointAllocationPool::Allocate.  Returns the allocated
range (the empty default range on failure) together with the pool
after the call. -/
def DisjointAllocationPool.Allocate (size : Nat) :
    List AddressRange → AddressRange × List AddressRange
  | [] => (AddressRange.mkDefault, [])
  | r :: rest =>
    if size > r.size then
      let p := DisjointAllocationPool.Allocate size rest
      (p.1, r :: p.2)
    else
      let ret : AddressRange := { start := r.start, stop := r.start + size }
      if size = r.size then (ret, rest)
      else (ret, { start := r.start + size, stop := r.stop } :: rest)

/-- The head of the list lies strictly above the given address (used
to state the sortedness invariant of the pool). -/
def BelowAll (a : Nat) : List AddressRange → Prop
  | [] => True
  | r :: _ => a < r.start

instance (a : Nat) (l : List AddressRange) : Decidable (BelowAll a l) := by
  cases l <;> simp [BelowAll] <;> infer_instance

/-- The documented invariant of DisjointAllocationPool: ranges are
non-empty and strictly increasing, adjacent ranges already coalesced
(the comment above the class in wasm-code-manager.h). -/
def PoolValid : List AddressRange → Prop
  | [] => True
  | r :: rest => r.start < r.stop ∧ BelowAll r.stop rest ∧ PoolValid rest

instance : (l : List AddressRange) → Decidable (PoolValid l)
  | [] => by simp [PoolValid]; infer_instance
  | _ :: rest => by
      have := instDecidablePoolValid rest
      simp [PoolValid]; infer_instance

/-- The merge precondition stated in the header comment: the parameter
range does not intersect any stored range. -/
def DisjointFrom (range : AddressRange) : List AddressRange → Prop
  | [] => True
  | r :: rest => (range.stop ≤ r.start ∨ r.stop ≤ range.start) ∧
      DisjointFrom range rest

instance (range : AddressRange) : (l : List AddressRange) →
    Decidable (DisjointFrom range l)
  | [] => by simp [DisjointFrom]; infer_instance
  | _ :: rest => by
      have := instDecidableDisjointFrom range rest
      simp [DisjointFrom]; infer_instance

/-- Models class WasmCode, restricted to the attribute the claims are
about: the instruction slice inside the owning module's reservations. -/
structure WasmCode where
  instructions : AddressRange
deriving DecidableEq, Repr

/-- Models WasmCode::instruction_start(). -/
def WasmCode.instruction_start (c : WasmCode) : Nat := c.instructions.start

/-- Models WasmCode::contains: the half-open test on the instruction
slice. -/
def WasmCode.contains (c : WasmCode) (pc : Nat) : Bool :=
  decide (c.instructions.start ≤ pc) && decide (pc < c.instructions.stop)

/-- The iterator position one before std upper_bound of owned_code by
pc with WasmCodeUniquePtrComparator.  On lists sorted by instruction
start (the documented owned_code invariant) this linear scan returns
the last code whose instruction start is at most pc, which is exactly
the element the source decrements the upper-bound iterator to; none
models the iterator sitting at begin. -/
def UpperBoundCandidate (pc : Nat) : List WasmCode → Option WasmCode
  | [] => none
  | c :: rest =>
    if pc < c.instruction_start then none
    else
      match UpperBoundCandidate pc rest with
      | some r => some r
      | none => some c

/-- Models class NativeModule, restricted to the fields the claims are
about.  code_table is the array of length num_functions minus
num_imported_functions holding the current best code per declared
function or null. -/
structure NativeModule where
  num_functions : Nat
  num_imported_functions : Nat
  owned_code : List WasmCode
  code_table : List (Option WasmCode)
  jump_table : WasmCode
  free_code_space : List AddressRange
  allocated_code_space : List AddressRange
  committed_code_space : Nat
  modification_scope_depth : Int
  use_trap_handler : Bool
  is_executable : Bool
deriving DecidableEq, Repr

/-- The body of NativeModule::Lookup as a function of the owned_code
list: upper-bound by pc, step the iterator back (none if it is at the
beginning), and return the candidate exactly when it contains pc. -/
def LookupAux (pc : Nat) (owned_code : List WasmCode) : Option WasmCode :=
  match UpperBoundCandidate pc owned_code with
  | none => none
  | some candidate => if candidate.contains pc then some candidate else none

/-- Models NativeModule::Lookup. -/
def NativeModule.Lookup (nm : NativeModule) (pc : Nat) : Option WasmCode :=
  LookupAux pc nm.owned_code

/-- The head code starts at or after the given address. -/
def CodeBelowAll (a : Nat) : List WasmCode → Prop
  | [] => True
  | c :: _ => a ≤ c.instructions.start

instance (a : Nat) (l : List WasmCode) : Decidable (CodeBelowAll a l) := by
  cases l <;> simp [CodeBelowAll] <;> infer_instance

/-- The documented owned_code invariant: kept in ascending order of
instruction start, with pairwise disjoint (possibly adjacent)
instruction ranges. -/
def OwnedCodeValid : List WasmCode → Prop
  | [] => True
  | c :: rest => c.instructions.start ≤ c.instructions.stop ∧
      CodeBelowAll c.instructions.stop rest ∧ OwnedCodeValid rest

instance : (l : List WasmCode) → Decidable (OwnedCodeValid l)
  | [] => by simp [OwnedCodeValid]; infer_instance
  | _ :: rest => by
      have := instDecidableOwnedCodeValid rest
      simp [OwnedCodeValid]; infer_instance

/-- Models NativeModule::GetCallTargetForFunction.  The jump table
slot size is the architecture constant
JumpTableAssembler::kJumpTableSlotSize, whose definition lives in
jump-table-assembler.h outside these sources; it is passed here as an
explicit parameter. -/
def NativeModule.GetCallTargetForFunction (slotSize : Nat)
    (nm : NativeModule) (func_index : Nat) : Nat :=
  nm.jump_table.instruction_start +
    (func_index - nm.num_imported_functions) * slotSize

/-- Models NativeModule::GetFunctionIndexFromJumpTableSlot, with the
slot size passed as in GetCallTargetForFunction. -/
def NativeModule.GetFunctionIndexFromJumpTableSlot (slotSize : Nat)
    (nm : NativeModule) (slot_address : Nat) : Nat :=
  nm.num_imported_functions +
    (slot_address - nm.jump_table.instruction_start) / slotSize

/-- Models NativeModule::DisableTrapHandler: flips the flag and zeroes
every code_table entry (the memset over the whole table); everything
else is untouched. -/
def NativeModule.DisableTrapHandler (nm : NativeModule) : NativeModule :=
  { nm with
    use_trap_handler := false,
    code_table := nm.code_table.map (fun _ => none) }

/-- The permission-change loop of NativeModule::SetExecutable over the
ranges of allocated_code_space (the non-Windows path of the source):
each iteration issues one OS SetPermissions syscall whose outcome the
oracle gives; the first failure returns false immediately.  Returns
the overall success and the number of syscalls issued. -/
def SetRangesPermissions (os : AddressRange → Bool) :
    List AddressRange → Bool × Nat
  | [] => (true, 0)
  | r :: rest =>
    if os r then
      ((SetRangesPermissions os rest).1, (SetRangesPermissions os rest).2 + 1)
    else (false, 1)

/-- Models NativeModule::SetExecutable.  flagWP is
FLAG_wasm_write_protect_code_memory; os is the outcome of the OS
permission-change call per range.  Returns the C++ return value, the
module after the call, and the number of permission-change syscalls
issued during the call. -/
def NativeModule.SetExecutable (flagWP : Bool) (os : AddressRange → Bool)
    (nm : NativeModule) (executable : Bool) : Bool × NativeModule × Nat :=
  if nm.is_executable = executable then (true, nm, 0)
  else if flagWP then
    if (SetRangesPermissions os nm.allocated_code_space).1 then
      (true, { nm with is_executable := executable },
        (SetRangesPermissions os nm.allocated_code_space).2)
    else (false, nm, (SetRangesPermissions os nm.allocated_code_space).2)
  else (true, { nm with is_executable := executable }, 0)

/-- The module after the post-increment of modification_scope_depth
performed by the scope constructor. -/
def ScopeIncremented (nm : NativeModule) : NativeModule :=
  { nm with modification_scope_depth := nm.modification_scope_depth + 1 }

/-- The module after the post-decrement of modification_scope_depth
performed by the scope destructor. -/
def ScopeDecremented (nm : NativeModule) : NativeModule :=
  { nm with modification_scope_depth := nm.modification_scope_depth - 1 }

/-- Models the NativeModuleModificationScope constructor on a non-null
module: post-increment of modification_scope_depth, and when the old
depth was 0 a SetExecutable(false) call whose failure trips the CHECK
and aborts the process (modelled as none). -/
def NativeModuleModificationScopeEnter (flagWP : Bool)
    (os : AddressRange → Bool) (nm : NativeModule) :
    Option (NativeModule × Nat) :=
  if nm.modification_scope_depth = 0 then
    if (NativeModule.SetExecutable flagWP os (ScopeIncremented nm) false).1 then
      some ((NativeModule.SetExecutable flagWP os
              (ScopeIncremented nm) false).2.1,
            (NativeModule.SetExecutable flagWP os
              (ScopeIncremented nm) false).2.2)
    else none
  else some (ScopeIncremented nm, 0)

/-- Models the NativeModuleModificationScope destructor on a non-null
module: post-decrement of modification_scope_depth, and when the old
depth was 1 a SetExecutable(true) call whose failure trips the CHECK
and aborts the process (modelled as none). -/
def NativeModuleModificationScopeExit (flagWP : Bool)
    (os : AddressRange → Bool) (nm : NativeModule) :
    Option (NativeModule × Nat) :=
  if nm.modification_scope_depth = 1 then
    if (NativeModule.SetExecutable flagWP os (ScopeDecremented nm) true).1 then
      some ((NativeModule.SetExecutable flagWP os
              (ScopeDecremented nm) true).2.1,
            (NativeModule.SetExecutable flagWP os
              (ScopeDecremented nm) true).2.2)
    else none
  else some (ScopeDecremented nm, 0)

/-- Models WasmCodeManager::Commit on the remaining_uncommitted
counter.  The CAS loop is sequentialized (the spec reads the invariant
modulo in-flight CAS retries); os_ok is the result of the OS
SetPermissions call; on OS failure the debited size is credited back
by the fetch-add of the source.  Returns the C++ return value and the
counter after the call. -/
def WasmCodeManager.Commit (remaining_uncommitted size : Nat)
    (os_ok : Bool) : Bool × Nat :=
  if remaining_uncommitted < size then (false, remaining_uncommitted)
  else if os_ok then (true, remaining_uncommitted - size)
  else (false, remaining_uncommitted - size + size)

/-- The accounting state of a WasmCodeManager: the atomic counter and
the committed_code_space of each live NativeModule. -/
structure CodeManagerState where
  remaining_uncommitted_code_space : Nat
  modules : List Nat
deriving DecidableEq, Repr

/-- The accounting-relevant transitions of the code manager, read off
the source: NewNativeModule registers a module with zero committed
bytes; a successful commit slice in NativeModule::AllocateForCode
debits the counter through WasmCodeManager::Commit and credits the
module committed_code_space by the same slice size; a failed Commit
leaves the modules untouched and the counter as Commit left it; and
WasmCodeManager::FreeNativeModule credits the freed module's
committed_code_space back and drops the module. -/
inductive CMStep : CodeManagerState → CodeManagerState → Prop
  | newNativeModule (s : CodeManagerState) :
      CMStep s ⟨s.remaining_uncommitted_code_space, 0 :: s.modules⟩
  | commitSlice (s : CodeManagerState) (i : Nat) (hi : i < s.modules.length)
      (size : Nat) (os_ok : Bool)
      (hok : (WasmCodeManager.Commit s.remaining_uncommitted_code_space
        size os_ok).1 = true) :
      CMStep s ⟨(WasmCodeManager.Commit s.remaining_uncommitted_code_space
          size os_ok).2,
        s.modules.set i (s.modules.get ⟨i, hi⟩ + size)⟩
  | commitFailed (s : CodeManagerState) (size : Nat) (os_ok : Bool)
      (hfail : (WasmCodeManager.Commit s.remaining_uncommitted_code_space
        size os_ok).1 = false) :
      CMStep s ⟨(WasmCodeManager.Commit s.remaining_uncommitted_code_space
          size os_ok).2, s.modules⟩
  | freeNativeModule (s : CodeManagerState) (i : Nat)
      (hi : i < s.modules.length) :
      CMStep s ⟨s.remaining_uncommitted_code_space +
          s.modules.get ⟨i, hi⟩, s.modules.eraseIdx i⟩

/-- States reachable from a WasmCodeManager constructed with the given
cap (the constructor stores max_committed in the counter, with no live
module). -/
inductive CMReachable (max_committed : Nat) : CodeManagerState → Prop
  | init : CMReachable max_committed ⟨max_committed, []⟩
  | step {s t : CodeManagerState} : CMReachable max_committed s →
      CMStep s t → CMReachable max_committed t

/-- A small concrete NativeModule used to instantiate the theorems
with hypotheses: 3 functions of which 1 is imported, a 2-slot jump
table at address 4096, nothing installed yet. -/
def sampleModule : NativeModule where
  num_functions := 3
  num_imported_functions := 1
  owned_code := []
  code_table := [none, none]
  jump_table := { instructions := { start := 4096, stop := 4116 } }
  free_code_space := []
  allocated_code_space := []
  committed_code_space := 0
  modification_scope_depth := 0
  use_trap_handler := false
  is_executable := false

/-- A module owning two adjacent code objects, the configuration that
decides the boundary behaviour of Lookup at a code object's
instruction end. -/
def adjacentModule : NativeModule :=
  { sampleModule with
    owned_code := [{ instructions := { start := 0, stop := 10 } },
                   { instructions := { start := 10, stop := 20 } }] }

/-- A module inside one modification scope (depth 1). -/
def busyModule : NativeModule :=
  { sampleModule with modification_scope_depth := 1 }

/-- A module currently marked executable. -/
def execModule : NativeModule :=
  { sampleModule with is_executable := true }

/-- A module built with trap handlers on. -/
def trapModule : NativeModule :=
  { sampleModule with use_trap_handler := true }

/-- Auxiliary: merging a range that starts strictly above an address
into a pool whose head is strictly above that address yields a pool
whose head is strictly above that address. -/
theorem Merge_belowAll (range : AddressRange) (a : Nat) :
    ∀ l : List AddressRange, a < range.start → BelowAll a l →
      BelowAll a (DisjointAllocationPool.Merge range l)
  | [], h1, _ => by
      simpa [DisjointAllocationPool.Merge, BelowAll] using h1
  | d :: rest, h1, h2 => by
    have hd : a < d.start := h2
    simp only [DisjointAllocationPool.Merge]
    split_ifs with hA hB hC
    · exact hd
    · exact h1
    · exact h1
    · cases rest with
      | nil => exact hd
      | cons n rest2 =>
        simp only [MergeAbove]
        split_ifs with hD
        · exact hd
        · exact hd

/-- Merge preserves the pool invariant, assuming the documented
precondition that the merged range is non-empty and intersects no
stored range. -/
theorem Merge_PoolValid :
    ∀ (l : List AddressRange) (range : AddressRange),
      PoolValid l → range.start < range.stop → DisjointFrom range l →
      PoolValid (DisjointAllocationPool.Merge range l)
  | [], range, _, hr, _ => by
      simp [DisjointAllocationPool.Merge, PoolValid, BelowAll, hr]
  | d :: rest, range, hv, hr, hdisj => by
    obtain ⟨hd1, hd2, hd3⟩ := hv
    obtain ⟨hdj1, hdj2⟩ := hdisj
    simp only [DisjointAllocationPool.Merge]
    split_ifs with hA hB hC
    · exact ⟨hd1, Merge_belowAll range d.stop rest hA hd2,
        Merge_PoolValid rest range hd3 hr hdj2⟩
    · exact ⟨show range.start < d.stop by omega, hd2, hd3⟩
    · exact ⟨hr, hC, hd1, hd2, hd3⟩
    · have hEq : d.stop = range.start := by
        rcases hdj1 with h | h <;> omega
      cases rest with
      | nil =>
        exact ⟨show d.start < range.stop by omega, trivial, trivial⟩
      | cons n rest2 =>
        have hdn : d.stop < n.start := hd2
        obtain ⟨hn1, hn2, hn3⟩ := hd3
        obtain ⟨hj, hj2⟩ := hdj2
        have hjn : range.stop ≤ n.start := by rcases hj with h | h <;> omega
        simp only [MergeAbove]
        split_ifs with hD
        · exact ⟨show d.start < n.stop by omega, hn2, hn3⟩
        · exact ⟨show d.start < range.stop by omega,
            show range.stop < n.start by omega, hn1, hn2, hn3⟩

/-- First-fit characterization of Allocate: with every range before
the first fitting range too small, the scan returns the start of that
fitting range, erasing it when the sizes are exactly equal and
advancing its start otherwise. -/
theorem Allocate_firstFit :
    ∀ (l1 : List AddressRange) (r : AddressRange) (l2 : List AddressRange)
      (size : Nat), (∀ x ∈ l1, x.size < size) → size ≤ r.size →
      DisjointAllocationPool.Allocate size (l1 ++ r :: l2) =
        ({ start := r.start, stop := r.start + size },
         l1 ++ (if size = r.size then l2
                else { start := r.start + size, stop := r.stop } :: l2))
  | [], r, l2, size, _, hfit => by
      simp only [List.nil_append, DisjointAllocationPool.Allocate]
      have hgt : ¬ size > r.size := by omega
      simp only [hgt, if_false]
      split_ifs with h <;> simp
  | x :: l1, r, l2, size, hsmall, hfit => by
      have hx : x.size < size := hsmall x (List.mem_cons_self x l1)
      have ih := Allocate_firstFit l1 r l2 size
        (fun y hy => hsmall y (List.mem_cons_of_mem x hy)) hfit
      simp only [List.cons_append, DisjointAllocationPool.Allocate]
      have hgt : size > x.size := hx
      simp only [hgt, if_true, List.append_eq, ih]

/-- When no stored range fits, Allocate returns the default (empty)
range and leaves the pool unchanged. -/
theorem Allocate_noFit :
    ∀ (l : List AddressRange) (size : Nat), (∀ x ∈ l, x.size < size) →
      DisjointAllocationPool.Allocate size l = (AddressRange.mkDefault, l)
  | [], size, _ => rfl
  | x :: l, size, hsmall => by
      have hx : x.size < size := hsmall x (List.mem_cons_self x l)
      have ih := Allocate_noFit l size
        (fun y hy => hsmall y (List.mem_cons_of_mem x hy))
      simp only [DisjointAllocationPool.Allocate]
      have hgt : size > x.size := hx
      simp only [hgt, if_true, ih]

/-- A zero-size allocation always returns an empty range. -/
theorem Allocate_zero (l : List AddressRange) :
    ((DisjointAllocationPool.Allocate 0 l).1).is_empty = true := by
  cases l with
  | nil => rfl
  | cons r rest =>
      simp only [DisjointAllocationPool.Allocate]
      have h : ¬ (0 > r.size) := by omega
      simp only [h, if_false]
      split_ifs <;> simp [AddressRange.is_empty]

/-- In a valid owned_code list whose head starts at or after a, every
element starts at or after a. -/
theorem OwnedCode_start_ge :
    ∀ (l : List WasmCode), OwnedCodeValid l → ∀ (a : Nat), CodeBelowAll a l →
      ∀ x ∈ l, a ≤ x.instructions.start
  | [], _, a, _ => by simp
  | c :: rest, hv, a, hb => by
      obtain ⟨h1, h2, h3⟩ := hv
      have ha : a ≤ c.instructions.start := hb
      intro x hx
      rcases List.mem_cons.mp hx with rfl | hx2
      · exact ha
      · have := OwnedCode_start_ge rest h3 c.instructions.stop h2 x hx2
        omega

/-- A none result of the upper-bound scan on a non-empty list means pc
lies strictly before the head. -/
theorem ub_cons_none {pc : Nat} {c1 : WasmCode} {rest2 : List WasmCode}
    (h : UpperBoundCandidate pc (c1 :: rest2) = none) :
    pc < c1.instruction_start := by
  by_contra hge
  simp only [UpperBoundCandidate, if_neg hge] at h
  cases hub2 : UpperBoundCandidate pc rest2 <;> simp [hub2] at h

/-- Characterization of Lookup on a list satisfying the owned_code
invariant: it answers some c exactly when c is an owned code object
whose half-open instruction range contains pc. -/
theorem LookupAux_iff :
    ∀ (l : List WasmCode), OwnedCodeValid l → ∀ (pc : Nat) (c : WasmCode),
      (LookupAux pc l = some c ↔ (c ∈ l ∧ c.contains pc = true))
  | [], _, pc, c => by simp [LookupAux, UpperBoundCandidate]
  | c0 :: rest, hv, pc, c => by
    obtain ⟨h1, h2, h3⟩ := hv
    by_cases hlt : pc < c0.instruction_start
    · have hnone : ∀ x ∈ c0 :: rest, ¬ x.contains pc = true := by
        intro x hx
        have hstart : c0.instructions.start ≤ x.instructions.start := by
          rcases List.mem_cons.mp hx with rfl | hx2
          · omega
          · have := OwnedCode_start_ge rest h3 c0.instructions.stop h2 x hx2
            omega
        simp only [WasmCode.contains, WasmCode.instruction_start] at *
        simp only [Bool.and_eq_true, decide_eq_true_eq]
        omega
      simp only [LookupAux, UpperBoundCandidate, if_pos hlt]
      constructor
      · intro h; cases h
      · rintro ⟨hm, hc⟩; exact absurd hc (hnone c hm)
    · cases hub : UpperBoundCandidate pc rest with
      | some r =>
        have heq : LookupAux pc (c0 :: rest) = LookupAux pc rest := by
          simp [LookupAux, UpperBoundCandidate, hlt, hub]
        have hc0 : ¬ c0.contains pc = true := by
          cases rest with
          | nil => simp [UpperBoundCandidate] at hub
          | cons c1 rest2 =>
            have hle : ¬ pc < c1.instruction_start := by
              intro hgt
              simp [UpperBoundCandidate, hgt] at hub
            have hc01 : c0.instructions.stop ≤ c1.instructions.start := h2
            simp only [WasmCode.contains, WasmCode.instruction_start] at *
            simp only [Bool.and_eq_true, decide_eq_true_eq]
            omega
        rw [heq, LookupAux_iff rest h3 pc c]
        constructor
        · rintro ⟨hm, hc⟩; exact ⟨List.mem_cons_of_mem _ hm, hc⟩
        · rintro ⟨hm, hc⟩
          rcases List.mem_cons.mp hm with rfl | hm2
          · exact absurd hc hc0
          · exact ⟨hm2, hc⟩
      | none =>
        have heq : LookupAux pc (c0 :: rest) =
            if c0.contains pc then some c0 else none := by
          simp [LookupAux, UpperBoundCandidate, hlt, hub]
        have hrest : ∀ x ∈ rest, ¬ x.contains pc = true := by
          cases rest with
          | nil => simp
          | cons c1 rest2 =>
            have hlt1 : pc < c1.instruction_start := ub_cons_none hub
            intro x hx
            have hx1 : c1.instructions.start ≤ x.instructions.start :=
              OwnedCode_start_ge (c1 :: rest2) h3 c1.instructions.start
                (le_refl _) x hx
            simp only [WasmCode.contains, WasmCode.instruction_start] at *
            simp only [Bool.and_eq_true, decide_eq_true_eq]
            omega
        rw [heq]
        by_cases hc0 : c0.contains pc = true
        · rw [if_pos hc0]
          constructor
          · rintro h
            injection h with h
            exact ⟨h ▸ List.mem_cons_self c0 rest, h ▸ hc0⟩
          · rintro ⟨hm, hc⟩
            rcases List.mem_cons.mp hm with rfl | hm2
            · rfl
            · exact absurd hc (hrest c hm2)
        · rw [if_neg hc0]
          constructor
          · intro h; cases h
          · rintro ⟨hm, hc⟩
            rcases List.mem_cons.mp hm with rfl | hm2
            · exact absurd hc hc0
            · exact absurd hc (hrest c hm2)

/-- Commit leaves the counter exactly as it was whenever it returns
false (insufficient budget, or OS failure rolled back). -/
theorem Commit_fail_eq {r size : Nat} {os : Bool}
    (h : (WasmCodeManager.Commit r size os).1 = false) :
    (WasmCodeManager.Commit r size os).2 = r := by
  unfold WasmCodeManager.Commit at h ⊢
  split_ifs at h ⊢ with h1 h2
  · rfl
  · show r - size + size = r
    omega

/-- A successful Commit had sufficient budget and debited exactly the
requested size. -/
theorem Commit_success_eq {r size : Nat} {os : Bool}
    (h : (WasmCodeManager.Commit r size os).1 = true) :
    size ≤ r ∧ (WasmCodeManager.Commit r size os).2 = r - size := by
  unfold WasmCodeManager.Commit at h ⊢
  split_ifs at h ⊢ with h1 h2
  · exact ⟨by omega, rfl⟩

/-- Setting position i of a list of naturals to its value plus k adds
k to the sum. -/
theorem sum_set_get_add :
    ∀ (l : List Nat) (i : Nat) (hi : i < l.length) (k : Nat),
      (l.set i (l.get ⟨i, hi⟩ + k)).sum = l.sum + k
  | a :: l, 0, _, k => by simp [List.sum_cons]; omega
  | a :: l, i + 1, hi, k => by
      have ih := sum_set_get_add l i (by simpa using hi) k
      simp only [List.set, List.sum_cons, List.get] at *
      omega

/-- Erasing position i of a list of naturals subtracts its value from
the sum. -/
theorem sum_eraseIdx_get :
    ∀ (l : List Nat) (i : Nat) (hi : i < l.length),
      (l.eraseIdx i).sum + l.get ⟨i, hi⟩ = l.sum
  | a :: l, 0, _ => by simp [List.eraseIdx, List.sum_cons]; omega
  | a :: l, i + 1, hi => by
      have ih := sum_eraseIdx_get l i (by simpa using hi)
      simp only [List.eraseIdx, List.sum_cons, List.get] at *
      omega

/-- Every accounting transition conserves the sum of module committed
bytes plus the remaining-uncommitted counter. -/
theorem CMStep_conserves {s t : CodeManagerState} (h : CMStep s t) :
    t.modules.sum + t.remaining_uncommitted_code_space =
    s.modules.sum + s.remaining_uncommitted_code_space := by
  cases h with
  | newNativeModule =>
      show (0 :: s.modules).sum + s.remaining_uncommitted_code_space =
        s.modules.sum + s.remaining_uncommitted_code_space
      simp
  | commitSlice i hi size os_ok hok =>
      obtain ⟨hle, h2⟩ := Commit_success_eq hok
      show (s.modules.set i (s.modules.get ⟨i, hi⟩ + size)).sum +
          (WasmCodeManager.Commit s.remaining_uncommitted_code_space
            size os_ok).2 =
        s.modules.sum + s.remaining_uncommitted_code_space
      rw [h2, sum_set_get_add s.modules i hi size]
      omega
  | commitFailed size os_ok hfail =>
      show s.modules.sum +
          (WasmCodeManager.Commit s.remaining_uncommitted_code_space
            size os_ok).2 =
        s.modules.sum + s.remaining_uncommitted_code_space
      rw [Commit_fail_eq hfail]
  | freeNativeModule i hi =>
      show (s.modules.eraseIdx i).sum +
          (s.remaining_uncommitted_code_space + s.modules.get ⟨i, hi⟩) =
        s.modules.sum + s.remaining_uncommitted_code_space
      have h2 := sum_eraseIdx_get s.modules i hi
      omega

/-- The budget conservation invariant holds in every reachable state. -/
theorem CMReachable_invariant {cap : Nat} {s : CodeManagerState}
    (h : CMReachable cap s) :
    s.modules.sum + s.remaining_uncommitted_code_space = cap := by
  induction h with
  | init => simp
  | step hr hstep ih => rw [CMStep_conserves hstep]; exact ih

/-- When SetExecutable returns true, the module records the requested
executable state. -/
theorem SetExecutable_success_exec {flag : Bool} {os : AddressRange → Bool}
    {m : NativeModule} {x : Bool}
    (h : (NativeModule.SetExecutable flag os m x).1 = true) :
    (NativeModule.SetExecutable flag os m x).2.1.is_executable = x := by
  unfold NativeModule.SetExecutable at h ⊢
  split_ifs at h ⊢ with h1 h2 h3
  · exact h1
  · rfl
  · rfl

/-- SetExecutable never changes the modification scope depth. -/
theorem SetExecutable_depth (flag : Bool) (os : AddressRange → Bool)
    (m : NativeModule) (x : Bool) :
    (NativeModule.SetExecutable flag os m x).2.1.modification_scope_depth =
      m.modification_scope_depth := by
  unfold NativeModule.SetExecutable
  split_ifs <;> rfl

/-- C1: Budget conservation: in every state of a WasmCodeManager
created with cap max_committed that is reachable through the
accounting transitions, the sum of committed_code_space over all live
NativeModules plus remaining_uncommitted_code_space equals the cap;
every transition conserves that sum; a successful Commit debits the
counter by exactly the committed size (the commit slice step credits
the module by the same amount, as the set conjunct shows); and erasing
a module credits its full committed_code_space back. -/
theorem C1_budget_conservation :
    (∀ (max_committed : Nat) (s : CodeManagerState),
        CMReachable max_committed s →
        s.modules.sum + s.remaining_uncommitted_code_space =
          max_committed) ∧
    (∀ s t : CodeManagerState, CMStep s t →
        t.modules.sum + t.remaining_uncommitted_code_space =
          s.modules.sum + s.remaining_uncommitted_code_space) ∧
    (∀ (r size : Nat) (os_ok : Bool),
        (WasmCodeManager.Commit r size os_ok).1 = true →
        (WasmCodeManager.Commit r size os_ok).2 + size = r) ∧
    (∀ (l : List Nat) (i : Nat) (hi : i < l.length) (size : Nat),
        (l.set i (l.get ⟨i, hi⟩ + size)).sum = l.sum + size) ∧
    (∀ (l : List Nat) (i : Nat) (hi : i < l.length),
        (l.eraseIdx i).sum + l.get ⟨i, hi⟩ = l.sum) := by
  refine ⟨?_, ?_, ?_, sum_set_get_add, sum_eraseIdx_get⟩
  · intro cap s h; exact CMReachable_invariant h
  · intro s t h; exact CMStep_conserves h
  · intro r size os_ok h
    obtain ⟨hle, h2⟩ := Commit_success_eq h
    omega

theorem C1_budget_conservation_witness :
    (CodeManagerState.mk 5 [3]).modules.sum +
      (CodeManagerState.mk 5 [3]).remaining_uncommitted_code_space = 8 :=
  C1_budget_conservation.1 8 (CodeManagerState.mk 5 [3])
    (CMReachable.step
      (CMReachable.step CMReachable.init (CMStep.newNativeModule _))
      (CMStep.commitSlice _ 0 (by decide) 3 true (by decide)))

/-- C2: Commit error semantics: with the observed counter below the
request Commit returns false leaving the counter unchanged; with
sufficient budget it debits exactly the size; an OS failure rolls the
debit back, so every failing call is net unchanged; and a request of
exactly the current counter succeeds leaving it at zero. -/
theorem C2_commit_error_semantics :
    (∀ (r size : Nat) (os_ok : Bool), r < size →
        WasmCodeManager.Commit r size os_ok = (false, r)) ∧
    (∀ r size : Nat, size ≤ r →
        WasmCodeManager.Commit r size true = (true, r - size)) ∧
    (∀ r size : Nat, size ≤ r →
        WasmCodeManager.Commit r size false = (false, r)) ∧
    (∀ (r size : Nat) (os_ok : Bool),
        (WasmCodeManager.Commit r size os_ok).1 = false →
        (WasmCodeManager.Commit r size os_ok).2 = r) ∧
    (∀ r : Nat, WasmCodeManager.Commit r r true = (true, 0)) := by
  refine ⟨?_, ?_, ?_, fun r size os_ok h => Commit_fail_eq h, ?_⟩
  · intro r size os_ok h
    unfold WasmCodeManager.Commit
    rw [if_pos h]
  · intro r size h
    unfold WasmCodeManager.Commit
    rw [if_neg (by omega : ¬ r < size)]
    simp
  · intro r size h
    unfold WasmCodeManager.Commit
    rw [if_neg (by omega : ¬ r < size)]
    simp [Nat.sub_add_cancel h]
  · intro r
    unfold WasmCodeManager.Commit
    rw [if_neg (by omega : ¬ r < r)]
    simp

theorem C2_commit_error_semantics_witness :
    WasmCodeManager.Commit 2 5 true = (false, 2) ∧
    WasmCodeManager.Commit 5 3 false = (false, 5) ∧
    WasmCodeManager.Commit 5 5 true = (true, 0) :=
  ⟨C2_commit_error_semantics.1 2 5 true (by decide),
   C2_commit_error_semantics.2.2.1 5 3 (by decide),
   C2_commit_error_semantics.2.2.2.2 5⟩

/-- C3: Merge coalescing: on pools satisfying the sortedness invariant
merge of a non-empty non-overlapping range preserves the invariant; a
stored range adjacent above is extended downward; a stored range
adjacent below is extended upward and its successor folded in when the
extension reaches it (and left in place otherwise); and the concrete
scenarios of the spec compute as stated. -/
theorem C3_merge_coalescing :
    (∀ (l : List AddressRange) (range : AddressRange),
        PoolValid l → range.start < range.stop → DisjointFrom range l →
        PoolValid (DisjointAllocationPool.Merge range l)) ∧
    (∀ (d range : AddressRange) (rest : List AddressRange),
        ¬ d.stop < range.start → d.start = range.stop →
        DisjointAllocationPool.Merge range (d :: rest) =
          { start := range.start, stop := d.stop } :: rest) ∧
    (∀ (d n range : AddressRange) (rest2 : List AddressRange),
        ¬ d.stop < range.start → ¬ d.start = range.stop →
        ¬ range.stop < d.start → range.stop = n.start →
        DisjointAllocationPool.Merge range (d :: n :: rest2) =
          { start := d.start, stop := n.stop } :: rest2) ∧
    (∀ (d n range : AddressRange) (rest2 : List AddressRange),
        ¬ d.stop < range.start → ¬ d.start = range.stop →
        ¬ range.stop < d.start → ¬ range.stop = n.start →
        DisjointAllocationPool.Merge range (d :: n :: rest2) =
          { start := d.start, stop := range.stop } :: n :: rest2) ∧
    (DisjointAllocationPool.Merge ⟨100, 200⟩ [⟨0, 100⟩, ⟨200, 300⟩, ⟨400, 500⟩]
      = [⟨0, 300⟩, ⟨400, 500⟩]) ∧
    (DisjointAllocationPool.Merge ⟨300, 400⟩ [⟨0, 300⟩, ⟨400, 500⟩]
      = [⟨0, 500⟩]) := by
  refine ⟨Merge_PoolValid, ?_, ?_, ?_, by decide, by decide⟩
  · intro d range rest h1 h2
    simp only [DisjointAllocationPool.Merge, if_neg h1, if_pos h2]
  · intro d n range rest2 h1 h2 h3 h4
    simp only [DisjointAllocationPool.Merge, if_neg h1, if_neg h2, if_neg h3,
      MergeAbove, if_pos h4]
  · intro d n range rest2 h1 h2 h3 h4
    simp only [DisjointAllocationPool.Merge, if_neg h1, if_neg h2, if_neg h3,
      MergeAbove, if_neg h4]

theorem C3_merge_coalescing_witness :
    PoolValid (DisjointAllocationPool.Merge ⟨100, 200⟩
      [⟨0, 100⟩, ⟨200, 300⟩, ⟨400, 500⟩]) :=
  C3_merge_coalescing.1 [⟨0, 100⟩, ⟨200, 300⟩, ⟨400, 500⟩] ⟨100, 200⟩
    (by decide) (by decide) (by decide)

/-- C4: First-fit allocation: the scan in address order returns the
start of the first large-enough range, erasing it on exact fit and
advancing its start otherwise; when nothing fits it returns the empty
default range and leaves the pool unchanged; and a zero-size allocate
returns an empty range. -/
theorem C4_first_fit_allocate :
    (∀ (l1 : List AddressRange) (r : AddressRange) (l2 : List AddressRange)
        (size : Nat), (∀ x ∈ l1, x.size < size) → size ≤ r.size →
        DisjointAllocationPool.Allocate size (l1 ++ r :: l2) =
          ({ start := r.start, stop := r.start + size },
           l1 ++ (if size = r.size then l2
                  else { start := r.start + size, stop := r.stop } :: l2))) ∧
    (∀ (l : List AddressRange) (size : Nat), (∀ x ∈ l, x.size < size) →
        DisjointAllocationPool.Allocate size l =
          (AddressRange.mkDefault, l)) ∧
    (AddressRange.mkDefault.is_empty = true) ∧
    (∀ l : List AddressRange,
        ((DisjointAllocationPool.Allocate 0 l).1).is_empty = true) :=
  ⟨Allocate_firstFit, Allocate_noFit, by decide, Allocate_zero⟩

theorem C4_first_fit_allocate_witness :
    DisjointAllocationPool.Allocate 3 [⟨0, 2⟩, ⟨10, 20⟩] =
      (⟨10, 13⟩, [⟨0, 2⟩, ⟨13, 20⟩]) := by
  have h := C4_first_fit_allocate.1 [⟨0, 2⟩] ⟨10, 20⟩ [] 3
    (by decide) (by decide)
  simpa [AddressRange.size] using h

/-- C5: Jump-table round trip: for a module with at least one declared
wasm function and any declared index f (imported bound included below,
total bound above), translating f to its call target and back through
the jump-table slot arithmetic returns f, for any positive
architecture slot size. -/
theorem C5_jump_table_round_trip (slotSize : Nat) (hs : 0 < slotSize)
    (nm : NativeModule) (f : Nat)
    (h1 : nm.num_imported_functions ≤ f) (h2 : f < nm.num_functions) :
    nm.GetFunctionIndexFromJumpTableSlot slotSize
      (nm.GetCallTargetForFunction slotSize f) = f := by
  unfold NativeModule.GetFunctionIndexFromJumpTableSlot
    NativeModule.GetCallTargetForFunction
  rw [Nat.add_sub_cancel_left, Nat.mul_div_cancel _ hs]
  omega

theorem C5_jump_table_round_trip_witness :
    sampleModule.GetFunctionIndexFromJumpTableSlot 10
      (sampleModule.GetCallTargetForFunction 10 2) = 2 :=
  C5_jump_table_round_trip 10 (by decide) sampleModule 2
    (by decide) (by decide)

/-- C6 counterexample: a sorted, pairwise-disjoint owned_code with two
adjacent code objects; a lookup on a PC equal to the first code
object's instructions end is not null, it returns the second code
object, which starts exactly there. -/
theorem C6_lookup_end_counterexample :
    OwnedCodeValid adjacentModule.owned_code ∧
    (⟨⟨0, 10⟩⟩ : WasmCode) ∈ adjacentModule.owned_code ∧
    adjacentModule.Lookup
        ((⟨⟨0, 10⟩⟩ : WasmCode).instructions.stop) ≠ none ∧
    adjacentModule.Lookup ((⟨⟨0, 10⟩⟩ : WasmCode).instructions.stop) =
      some ⟨⟨10, 20⟩⟩ :=
  ⟨by decide, by decide, by decide, by decide⟩

/-- C6 (amended): on owned_code sorted by instruction start with
pairwise-disjoint ranges, Lookup returns null when pc lies before
every code object; it returns exactly the owned code object whose
half-open range contains pc and null when there is none; and it never
returns a code object whose instructions end equals pc (though it may
return a different, adjacent object starting at that address). -/
theorem C6_lookup_semantics (nm : NativeModule)
    (hv : OwnedCodeValid nm.owned_code) (pc : Nat) :
    ((∀ x ∈ nm.owned_code, pc < x.instructions.start) →
        nm.Lookup pc = none) ∧
    (∀ c : WasmCode, nm.Lookup pc = some c ↔
        (c ∈ nm.owned_code ∧ c.contains pc = true)) ∧
    ((∀ x ∈ nm.owned_code, ¬ x.contains pc = true) →
        nm.Lookup pc = none) ∧
    (∀ c : WasmCode, c ∈ nm.owned_code → pc = c.instructions.stop →
        nm.Lookup pc ≠ some c) := by
  have key : ∀ c : WasmCode, nm.Lookup pc = some c ↔
      (c ∈ nm.owned_code ∧ c.contains pc = true) := fun c =>
    LookupAux_iff nm.owned_code hv pc c
  refine ⟨?_, key, ?_, ?_⟩
  · intro hall
    cases hl : nm.Lookup pc with
    | none => rfl
    | some c =>
        obtain ⟨hm, hc⟩ := (key c).mp hl
        have hx := hall c hm
        simp only [WasmCode.contains, Bool.and_eq_true,
          decide_eq_true_eq] at hc
        omega
  · intro hall
    cases hl : nm.Lookup pc with
    | none => rfl
    | some c =>
        obtain ⟨hm, hc⟩ := (key c).mp hl
        exact absurd hc (hall c hm)
  · intro c hm he hl
    obtain ⟨hm2, hc⟩ := (key c).mp hl
    simp only [WasmCode.contains, Bool.and_eq_true,
      decide_eq_true_eq] at hc
    omega

theorem C6_lookup_semantics_witness :
    adjacentModule.Lookup 10 ≠ some ⟨⟨0, 10⟩⟩ :=
  (C6_lookup_semantics adjacentModule (by decide) 10).2.2.2
    ⟨⟨0, 10⟩⟩ (by decide) (by decide)

/-- C7: Modification-scope latch: entering a scope at depth 0 leaves
the module non-executable at depth 1; leaving the scope at depth 1
leaves it executable at depth 0; scopes entered or exited at any other
depth only move the counter and issue zero permission-change syscalls;
and the process aborts (none) exactly when one of these two
transitions has its SetExecutable call fail. -/
theorem C7_modification_scope_latch (flagWP : Bool)
    (os : AddressRange → Bool) (nm : NativeModule) :
    (nm.modification_scope_depth = 0 →
      ∀ (nm2 : NativeModule) (k : Nat),
        NativeModuleModificationScopeEnter flagWP os nm = some (nm2, k) →
        nm2.is_executable = false ∧ nm2.modification_scope_depth = 1) ∧
    (nm.modification_scope_depth = 1 →
      ∀ (nm2 : NativeModule) (k : Nat),
        NativeModuleModificationScopeExit flagWP os nm = some (nm2, k) →
        nm2.is_executable = true ∧ nm2.modification_scope_depth = 0) ∧
    (nm.modification_scope_depth ≠ 0 →
      NativeModuleModificationScopeEnter flagWP os nm =
        some (ScopeIncremented nm, 0)) ∧
    (nm.modification_scope_depth ≠ 1 →
      NativeModuleModificationScopeExit flagWP os nm =
        some (ScopeDecremented nm, 0)) ∧
    (NativeModuleModificationScopeEnter flagWP os nm = none ↔
      (nm.modification_scope_depth = 0 ∧
        (NativeModule.SetExecutable flagWP os (ScopeIncremented nm)
          false).1 = false)) ∧
    (NativeModuleModificationScopeExit flagWP os nm = none ↔
      (nm.modification_scope_depth = 1 ∧
        (NativeModule.SetExecutable flagWP os (ScopeDecremented nm)
          true).1 = false)) := by
  refine ⟨?_, ?_, ?_, ?_, ?_, ?_⟩
  · intro h0 nm2 k hsome
    unfold NativeModuleModificationScopeEnter at hsome
    rw [if_pos h0] at hsome
    by_cases hsucc : (NativeModule.SetExecutable flagWP os
        (ScopeIncremented nm) false).1 = true
    · rw [if_pos hsucc] at hsome
      injection hsome with hpair
      injection hpair with ha hb
      refine ⟨ha ▸ SetExecutable_success_exec hsucc, ?_⟩
      rw [← ha, SetExecutable_depth]
      simp [ScopeIncremented, h0]
    · rw [if_neg hsucc] at hsome
      cases hsome
  · intro h1 nm2 k hsome
    unfold NativeModuleModificationScopeExit at hsome
    rw [if_pos h1] at hsome
    by_cases hsucc : (NativeModule.SetExecutable flagWP os
        (ScopeDecremented nm) true).1 = true
    · rw [if_pos hsucc] at hsome
      injection hsome with hpair
      injection hpair with ha hb
      refine ⟨ha ▸ SetExecutable_success_exec hsucc, ?_⟩
      rw [← ha, SetExecutable_depth]
      simp [ScopeDecremented, h1]
    · rw [if_neg hsucc] at hsome
      cases hsome
  · intro h
    unfold NativeModuleModificationScopeEnter
    rw [if_neg h]
  · intro h
    unfold NativeModuleModificationScopeExit
    rw [if_neg h]
  · unfold NativeModuleModificationScopeEnter
    by_cases h0 : nm.modification_scope_depth = 0
    · rw [if_pos h0]
      by_cases hsucc : (NativeModule.SetExecutable flagWP os
          (ScopeIncremented nm) false).1 = true
      · rw [if_pos hsucc]
        simp [h0, hsucc]
      · rw [if_neg hsucc]
        rw [Bool.not_eq_true] at hsucc
        simp [h0, hsucc]
    · rw [if_neg h0]
      simp [h0]
  · unfold NativeModuleModificationScopeExit
    by_cases h1 : nm.modification_scope_depth = 1
    · rw [if_pos h1]
      by_cases hsucc : (NativeModule.SetExecutable flagWP os
          (ScopeDecremented nm) true).1 = true
      · rw [if_pos hsucc]
        simp [h1, hsucc]
      · rw [if_neg hsucc]
        rw [Bool.not_eq_true] at hsucc
        simp [h1, hsucc]
    · rw [if_neg h1]
      simp [h1]

theorem C7_modification_scope_latch_witness :
    NativeModuleModificationScopeEnter true (fun _ => true) busyModule =
      some (ScopeIncremented busyModule, 0) :=
  (C7_modification_scope_latch true (fun _ => true) busyModule).2.2.1
    (by decide)

/-- C8 counterexample: on a module already marked executable, the
sequence SetExecutable(true); SetExecutable(true) issues zero
permission-change syscalls in total, not exactly one. -/
theorem C8_syscall_counterexample :
    (NativeModule.SetExecutable true (fun _ => true) execModule true).2.2 +
      (NativeModule.SetExecutable true (fun _ => true)
        (NativeModule.SetExecutable true (fun _ => true)
          execModule true).2.1 true).2.2 = 0 ∧
    ¬ ((NativeModule.SetExecutable true (fun _ => true)
          execModule true).2.2 +
        (NativeModule.SetExecutable true (fun _ => true)
          (NativeModule.SetExecutable true (fun _ => true)
            execModule true).2.1 true).2.2 = 1) :=
  ⟨by decide, by decide⟩

/-- C8 (amended): SetExecutable(x) on a module whose executable state
already equals x performs no permission change and returns true;
consequently after any successful SetExecutable(x) the second call of
the sequence SetExecutable(x); SetExecutable(x) performs no permission
change, so every permission-change syscall of the sequence (possibly
zero, or one per allocated range) is issued by the first call. -/
theorem C8_set_executable_idempotent (flagWP : Bool)
    (os : AddressRange → Bool) (nm : NativeModule) (x : Bool) :
    (nm.is_executable = x →
        NativeModule.SetExecutable flagWP os nm x = (true, nm, 0)) ∧
    ((NativeModule.SetExecutable flagWP os nm x).1 = true →
        NativeModule.SetExecutable flagWP os
            (NativeModule.SetExecutable flagWP os nm x).2.1 x =
          (true, (NativeModule.SetExecutable flagWP os nm x).2.1, 0)) := by
  have hnoop : ∀ m : NativeModule, m.is_executable = x →
      NativeModule.SetExecutable flagWP os m x = (true, m, 0) := by
    intro m hm
    unfold NativeModule.SetExecutable
    rw [if_pos hm]
  refine ⟨hnoop nm, ?_⟩
  intro hsucc
  exact hnoop _ (SetExecutable_success_exec hsucc)

theorem C8_set_executable_idempotent_witness :
    NativeModule.SetExecutable true (fun _ => true) execModule true =
      (true, execModule, 0) :=
  (C8_set_executable_idempotent true (fun _ => true) execModule true).1 rfl

/-- C9: DisableTrapHandler frame: on a module using trap handlers the
call clears the flag and nulls every code_table entry while leaving
owned_code (hence every PC lookup), the jump table, both allocation
pools and committed_code_space unchanged. -/
theorem C9_disable_trap_handler (nm : NativeModule)
    (h : nm.use_trap_handler = true) :
    nm.DisableTrapHandler.use_trap_handler = false ∧
    (∀ e ∈ nm.DisableTrapHandler.code_table, e = none) ∧
    nm.DisableTrapHandler.code_table.length = nm.code_table.length ∧
    nm.DisableTrapHandler.owned_code = nm.owned_code ∧
    (∀ pc : Nat, nm.DisableTrapHandler.Lookup pc = nm.Lookup pc) ∧
    nm.DisableTrapHandler.jump_table = nm.jump_table ∧
    nm.DisableTrapHandler.free_code_space = nm.free_code_space ∧
    nm.DisableTrapHandler.allocated_code_space =
      nm.allocated_code_space ∧
    nm.DisableTrapHandler.committed_code_space =
      nm.committed_code_space := by
  refine ⟨rfl, ?_, ?_, rfl, fun pc => rfl, rfl, rfl, rfl, rfl⟩
  · intro e he
    unfold NativeModule.DisableTrapHandler at he
    simp only [List.mem_map] at he
    obtain ⟨a, ha, hae⟩ := he
    exact hae.symm
  · unfold NativeModule.DisableTrapHandler
    simp

theorem C9_disable_trap_handler_witness :
    trapModule.DisableTrapHandler.use_trap_handler = false :=
  (C9_disable_trap_handler trapModule rfl).1

/-- C10: AddressRange boolean conversion: it is true exactly when
start is the null address, so the default sentinel converts to true
while every range with non-null start (in particular every non-empty
range respecting the constructor invariant) converts to false, and
is_empty is the distinct start-equals-end test. -/
theorem C10_address_range_bool :
    (∀ r : AddressRange, r.toBool = true ↔ r.start = kNullAddress) ∧
    (AddressRange.mkDefault.toBool = true) ∧
    (AddressRange.mkDefault.is_empty = true) ∧
    (∀ r : AddressRange, r.start ≠ kNullAddress → r.toBool = false) ∧
    (∀ r : AddressRange, (r.start = kNullAddress → r.stop = kNullAddress) →
        r.is_empty = false → r.toBool = false) ∧
    (∀ r : AddressRange, r.is_empty = true ↔ r.start = r.stop) := by
  refine ⟨?_, by decide, by decide, ?_, ?_, ?_⟩
  · intro r
    simp [AddressRange.toBool]
  · intro r h
    simp [AddressRange.toBool, h]
  · intro r hinv hne
    simp only [AddressRange.is_empty, beq_eq_false_iff_ne, ne_eq] at hne
    simp only [AddressRange.toBool, beq_eq_false_iff_ne, ne_eq]
    intro h0
    exact hne (h0.trans (hinv h0).symm)
  · intro r
    simp [AddressRange.is_empty]

theorem C10_address_range_bool_witness :
    AddressRange.toBool ⟨5, 10⟩ = false :=
  C10_address_range_bool.2.2.2.1 ⟨5, 10⟩ (by decide)
